import Mathlib

set_option maxRecDepth 100000

/-!
Verification development for the pace-reader ingestion pipeline
(EPUB / PDF / plain-text extractors, HTML stripper, format dispatcher).
Strings are modelled as lists of characters; each JavaScript regular
expression used by the source is hand-compiled into an equivalent
character scanner.  Scanners whose source loops advance through the
input by jumping past a match carry a fuel argument; fuel is always
instantiated to the input length plus one, which strictly exceeds the
number of loop steps (every step consumes at least one character), so
the fuel-exhaustion branch is unreachable.
-/

abbrev Str := List Char

/-- Whitespace class used by the JavaScript regexes backslash-s and by trim
(ASCII whitespace plus the no-break space). -/
def isWs (c : Char) : Bool :=
  c = ' ' || c = '\t' || c = '\n' || c = '\r' || c = '\x0b' || c = '\x0c' || c = ' '

/-- Does the string start with a whitespace character (an empty string counts,
matching the behaviour of the token splitter on such a head). -/
def startsWsB : Str → Bool
  | [] => true
  | c :: _ => isWs c

/-- Splits at every whitespace character, keeping empty segments.
Filtering the empty segments away (see tokensOf) yields exactly the
maximal non-whitespace runs, i.e. the result of the source idiom
text.split(regex backslash-s-plus).filter(w greater than empty). -/
def wsSplit : Str → List Str
  | [] => [[]]
  | c :: cs =>
    let r := wsSplit cs
    if isWs c then [] :: r
    else
      match r with
      | [] => [[c]]
      | t :: ts => (c :: t) :: ts

/-- Whitespace-separated tokens of a string; models
text.split(whitespace-run regex).filter(w such that w.length greater than 0). -/
def tokensOf (s : Str) : List Str := (wsSplit s).filter (fun t => !t.isEmpty)

/-- Number of whitespace-separated tokens. -/
def countWords (s : Str) : Nat := (tokensOf s).length

/-- Models String.prototype.trimStart. -/
def trimL (s : Str) : Str := s.dropWhile (fun c => isWs c)

/-- Models String.prototype.trimEnd. -/
def trimR (s : Str) : Str := ((s.reverse).dropWhile (fun c => isWs c)).reverse

/-- Models String.prototype.trim. -/
def jsTrim (s : Str) : Str := trimR (trimL s)

/-- Models String.prototype.toLowerCase on ASCII data. -/
def toLowerL (s : Str) : Str := s.map Char.toLower

/-- Models String.prototype.toUpperCase on ASCII data. -/
def toUpperL (s : Str) : Str := s.map Char.toUpper

/-- Case-sensitive literal match at the start of the input; on success returns
the input with the pattern consumed. -/
def litDrop? : Str → Str → Option Str
  | [], s => some s
  | _ :: _, [] => none
  | p :: ps, c :: cs => if c = p then litDrop? ps cs else none

/-- Case-insensitive literal match at the start of the input (for regexes with
the i flag); on success returns the input with the pattern consumed. -/
def ciDrop? : Str → Str → Option Str
  | [], s => some s
  | _ :: _, [] => none
  | p :: ps, c :: cs => if c.toLower = p.toLower then ciDrop? ps cs else none

/-- Models startsWith. -/
def hasPre : Str → Str → Bool
  | [], _ => true
  | _ :: _, [] => false
  | p :: ps, c :: cs => (c = p) && hasPre ps cs

/-- Models endsWith. -/
def endsWithL (suf s : Str) : Bool := hasPre suf.reverse s.reverse

/-- Consumes the character class complement-of-stop repeated, then the stop
character itself: the regex fragment [^x]* x. Returns the rest, or none when
the stop character never occurs. -/
def dropThrough (stop : Char) : Str → Option Str
  | [] => none
  | c :: cs => if c = stop then some cs else dropThrough stop cs

/-- Like dropThrough but requires at least one character before the stop:
the regex fragment [^x]+ x. -/
def dropThroughOne (stop : Char) : Str → Option Str
  | [] => none
  | c :: cs => if c = stop then none else dropThrough stop cs

/-- Finds the first (case-insensitive) occurrence of the pattern and returns
the input after it, scanning forward one character at a time exactly as a
lazy regex quantifier followed by the pattern would. -/
def findAfterCI (pat : Str) : Str → Option Str
  | [] => ciDrop? pat []
  | c :: cs =>
    match ciDrop? pat (c :: cs) with
    | some r => some r
    | none => findAfterCI pat cs

/-- Scans for an attribute literal (case-insensitively) preceded by at least
one character, none of which may be the closing angle bracket: the regex
fragment [^gt]+ attr inside a tag. Returns the input after the attribute. -/
def seekAttr (attr : Str) : Nat → Str → Option Str
  | _, [] => none
  | seen, c :: cs =>
    match ciDrop? attr (c :: cs) with
    | some r =>
      if 0 < seen then some r
      else if c = '>' then none else seekAttr attr 1 cs
    | none => if c = '>' then none else seekAttr attr (seen + 1) cs

/-- Models the global removal of script or style elements including content:
the regex lt-script [^gt]* gt lazy-any lt-slash-script-gt with flags g and i. -/
def removeElemBlocksGo (nm : Str) : Nat → Str → Str
  | 0, s => s
  | _ + 1, [] => []
  | fuel + 1, c :: cs =>
    match ciDrop? ('<' :: nm) (c :: cs) with
    | some r1 =>
      match dropThrough '>' r1 with
      | some r2 =>
        match findAfterCI ('<' :: '/' :: (nm ++ ['>'])) r2 with
        | some r3 => removeElemBlocksGo nm fuel r3
        | none => c :: removeElemBlocksGo nm fuel cs
      | none => c :: removeElemBlocksGo nm fuel cs
    | none => c :: removeElemBlocksGo nm fuel cs

def removeElemBlocks (nm : Str) (s : Str) : Str := removeElemBlocksGo nm (s.length + 1) s

/-- Consumes the branch h followed by a digit between one and six of the
block-tag alternation. -/
def hDigitDrop? : Str → Option Str
  | c1 :: c2 :: r =>
    if c1.toLower = 'h' then (if '1' ≤ c2 ∧ c2 ≤ '6' then some r else none) else none
  | _ => none

/-- Consumes the tag-name alternation p, div, h followed by a digit one to
six, li, tr, br (case-insensitively); the alternatives start with pairwise
distinct letters, so first-match alternation is deterministic. -/
def blockNameDrop? (s : Str) : Option Str :=
  match ciDrop? ("p".data) s with
  | some r => some r
  | none =>
  match ciDrop? ("div".data) s with
  | some r => some r
  | none =>
  match hDigitDrop? s with
  | some r => some r
  | none =>
  match ciDrop? ("li".data) s with
  | some r => some r
  | none =>
  match ciDrop? ("tr".data) s with
  | some r => some r
  | none => ciDrop? ("br".data) s

/-- Matches a block-level opening or closing tag at the start of the input
(the source regexes for p, div, h1 to h6, li, tr, br with [^gt]* gt);
returns the rest after the closing angle bracket. -/
def blockTagMatchAt (close : Bool) (s : Str) : Option Str :=
  match (if close then litDrop? ("</".data) s else litDrop? ("<".data) s) with
  | none => none
  | some r1 =>
    match blockNameDrop? r1 with
    | none => none
    | some r2 => dropThrough '>' r2

/-- Global replacement of block-level open or close tags by a single space. -/
def replaceBlockTagsGo (close : Bool) : Nat → Str → Str
  | 0, s => s
  | _ + 1, [] => []
  | fuel + 1, c :: cs =>
    match blockTagMatchAt close (c :: cs) with
    | some r => ' ' :: replaceBlockTagsGo close fuel r
    | none => c :: replaceBlockTagsGo close fuel cs

def replaceBlockTags (close : Bool) (s : Str) : Str := replaceBlockTagsGo close (s.length + 1) s

/-- Global removal of remaining tags: the regex lt [^gt]+ gt with flag g. -/
def removeTagsGo : Nat → Str → Str
  | 0, s => s
  | _ + 1, [] => []
  | fuel + 1, c :: cs =>
    if c = '<' then
      match dropThroughOne '>' cs with
      | some r => removeTagsGo fuel r
      | none => c :: removeTagsGo fuel cs
    else c :: removeTagsGo fuel cs

def removeTags (s : Str) : Str := removeTagsGo (s.length + 1) s

/-- Global case-sensitive literal replacement, as the source entity passes
use (for example the no-break-space entity replaced by a space). -/
def replaceAllGo (pat rep : Str) : Nat → Str → Str
  | 0, s => s
  | _ + 1, [] => []
  | fuel + 1, c :: cs =>
    match litDrop? pat (c :: cs) with
    | some r => rep ++ replaceAllGo pat rep fuel r
    | none => c :: replaceAllGo pat rep fuel cs

def replaceAllL (pat rep s : Str) : Str := replaceAllGo pat rep (s.length + 1) s

/-- Decimal value of a digit list, as parseInt produces on a digit-only
capture. -/
def digitsVal (ds : Str) : Nat := ds.foldl (fun a c => a * 10 + (c.toNat - 48)) 0

/-- Models the numeric character reference pass: amp-hash digits semicolon
replaced by String.fromCharCode of the decimal value (a UTF-16 code unit,
hence the reduction modulo 2 to the 16). -/
def decodeNumGo : Nat → Str → Str
  | 0, s => s
  | _ + 1, [] => []
  | fuel + 1, c :: cs =>
    if c = '&' then
      match cs with
      | '#' :: ds =>
        let digits := ds.takeWhile Char.isDigit
        match digits, ds.dropWhile Char.isDigit with
        | _ :: _, ';' :: r => Char.ofNat (digitsVal digits % 65536) :: decodeNumGo fuel r
        | _, _ => c :: decodeNumGo fuel cs
      | _ => c :: decodeNumGo fuel cs
    else c :: decodeNumGo fuel cs

def decodeNum (s : Str) : Str := decodeNumGo (s.length + 1) s

def isAsciiLetter (c : Char) : Bool :=
  decide ('a' ≤ c ∧ c ≤ 'z') || decide ('A' ≤ c ∧ c ≤ 'Z')

/-- Models the final entity pass: amp letters semicolon (case-insensitive)
replaced by a space. -/
def removeNamedGo : Nat → Str → Str
  | 0, s => s
  | _ + 1, [] => []
  | fuel + 1, c :: cs =>
    if c = '&' then
      match cs.takeWhile isAsciiLetter, cs.dropWhile isAsciiLetter with
      | _ :: _, ';' :: r => ' ' :: removeNamedGo fuel r
      | _, _ => c :: removeNamedGo fuel cs
    else c :: removeNamedGo fuel cs

def removeNamed (s : Str) : Str := removeNamedGo (s.length + 1) s

/-- Models the global replacement of whitespace runs by a single space:
the first whitespace character of a run becomes the space, the rest of the
run is dropped. -/
def collapseGo : Bool → Str → Str
  | _, [] => []
  | prevWs, c :: cs =>
    if isWs c then
      (if prevWs then collapseGo true cs else ' ' :: collapseGo true cs)
    else c :: collapseGo false cs

def collapseWs (s : Str) : Str := collapseGo false s

/-- Models stripHtml from the source: remove script and style blocks, turn
block-level tags into spaces, strip remaining tags, decode entities in the
source order, then collapse whitespace and trim. -/
def stripHtml (html : Str) : Str :=
  let t1 := removeElemBlocks ("script".data) html
  let t2 := removeElemBlocks ("style".data) t1
  let t3 := replaceBlockTags true t2
  let t4 := replaceBlockTags false t3
  let t5 := removeTags t4
  let t6 := replaceAllL ("&nbsp;".data) " ".data t5
  let t7 := replaceAllL ("&amp;".data) "&".data t6
  let t8 := replaceAllL ("&lt;".data) "<".data t7
  let t9 := replaceAllL ("&gt;".data) ">".data t8
  let t10 := replaceAllL ("&quot;".data) "\"".data t9
  let t11 := decodeNum t10
  let t12 := removeNamed t11
  jsTrim (collapseWs t12)

/-- Chapter marker: title plus word-offset index. -/
structure Chapter where
  title : Str
  index : Nat
  deriving DecidableEq

/-- Models the BookMetadata interface of the source. -/
structure BookMetadata where
  title : Str
  author : Str
  chapters : List Chapter
  deriving DecidableEq

/-- Models the ParsedBook interface of the source. -/
structure ParsedBook where
  metadata : BookMetadata
  content : Str
  chapterBreaks : List Nat
  deriving DecidableEq

/-- Typed counterparts of the throw sites in the source (each carries the
data displayed in its message). -/
inductive ParseErr where
  | invalidContainerMissing
  | invalidContainerNoPath
  | invalidPackage
  | emptyDocument
  | unsupportedFormat (ext : Str)
  deriving DecidableEq

/-- Decimal rendering of a natural number, as template interpolation does. -/
def natStr (n : Nat) : Str := (Nat.repr n).data

/-- Models str.replace(pattern, replacement) with a string pattern: only the
first occurrence is replaced, case-sensitively. -/
def replaceFirstL (pat rep : Str) : Str → Str
  | [] => []
  | c :: cs =>
    match litDrop? pat (c :: cs) with
    | some r => rep ++ r
    | none => c :: replaceFirstL pat rep cs

/-- Models str.split(sep) with a single-character separator (keeps empty
segments, result always nonempty). -/
def splitOnChar (sep : Char) : Str → List Str
  | [] => [[]]
  | c :: cs =>
    let r := splitOnChar sep cs
    if c = sep then [] :: r
    else (c :: r.headD []) :: r.tail

/-- Models the capture of the first match of the container regex
full-path equals quote capture-nonquote-plus quote. -/
def fullPathCapture : Str → Option Str
  | [] => none
  | c :: cs =>
    match litDrop? ("full-path=\"".data) (c :: cs) with
    | some r =>
      let cap := r.takeWhile (fun x => x ≠ '"')
      match r.dropWhile (fun x => x ≠ '"') with
      | _ :: _ => if cap.isEmpty then fullPathCapture cs else some cap
      | [] => fullPathCapture cs
    | none => fullPathCapture cs

/-- Models the capture of the first match of lt name [^gt]* gt
capture-nonlt-plus lt-slash-name-gt with the i flag (used for dc:title,
dc:creator, h1, h2 and title lookups). -/
def tagCapture (nm : Str) : Str → Option Str
  | [] => none
  | c :: cs =>
    match ciDrop? ('<' :: nm) (c :: cs) with
    | some r1 =>
      match dropThrough '>' r1 with
      | some r2 =>
        let cap := r2.takeWhile (fun x => x ≠ '<')
        match ciDrop? ("</".data ++ nm ++ ">".data) (r2.dropWhile (fun x => x ≠ '<')) with
        | some _ => if cap.isEmpty then tagCapture nm cs else some cap
        | none => tagCapture nm cs
      | none => tagCapture nm cs
    | none => tagCapture nm cs

/-- Matches one manifest item tag at the start of the input: the regex
lt-item [^gt]+ id equals quote capture quote [^gt]+ href equals quote capture
quote [^gt]* gt (flags g and i).  Returns the two captures and the rest of
the input after the closing bracket. -/
def itemMatchAt (s : Str) : Option ((Str × Str) × Str) :=
  match ciDrop? ("<item".data) s with
  | none => none
  | some r1 =>
    match seekAttr ("id=\"".data) 0 r1 with
    | none => none
    | some r2 =>
      let idCap := r2.takeWhile (fun x => x ≠ '"')
      if idCap.isEmpty then none else
      match r2.dropWhile (fun x => x ≠ '"') with
      | _ :: r3 =>
        match seekAttr ("href=\"".data) 0 r3 with
        | none => none
        | some r4 =>
          let hrefCap := r4.takeWhile (fun x => x ≠ '"')
          if hrefCap.isEmpty then none else
          match r4.dropWhile (fun x => x ≠ '"') with
          | _ :: r5 => (dropThrough '>' r5).map (fun r6 => ((idCap, hrefCap), r6))
          | [] => none
      | [] => none

/-- Global scan collecting every manifest item match in order, continuing
after each match as the regex lastIndex does. -/
def manifestScanGo : Nat → Str → List (Str × Str)
  | 0, _ => []
  | _ + 1, [] => []
  | fuel + 1, c :: cs =>
    match itemMatchAt (c :: cs) with
    | some (pr, rest) => pr :: manifestScanGo fuel rest
    | none => manifestScanGo fuel cs

def manifestScan (s : Str) : List (Str × Str) := manifestScanGo (s.length + 1) s

/-- Folds the manifest matches into the JavaScript object
manifestItems[id] equals href: a later assignment to the same id
overwrites the earlier one. -/
def buildManifest (pairs : List (Str × Str)) : Str → Option Str :=
  pairs.foldl (fun m p => fun k => if k = p.1 then some p.2 else m k) (fun _ => none)

/-- Matches one spine itemref tag at the start of the input: the regex
lt-itemref [^gt]+ idref equals quote capture quote [^gt]* gt (flags g, i). -/
def itemrefMatchAt (s : Str) : Option (Str × Str) :=
  match ciDrop? ("<itemref".data) s with
  | none => none
  | some r1 =>
    match seekAttr ("idref=\"".data) 0 r1 with
    | none => none
    | some r2 =>
      let cap := r2.takeWhile (fun x => x ≠ '"')
      if cap.isEmpty then none else
      match r2.dropWhile (fun x => x ≠ '"') with
      | _ :: r3 => (dropThrough '>' r3).map (fun r4 => (cap, r4))
      | [] => none

/-- Global scan collecting the spine idrefs in reading order. -/
def spineScanGo : Nat → Str → List Str
  | 0, _ => []
  | _ + 1, [] => []
  | fuel + 1, c :: cs =>
    match itemrefMatchAt (c :: cs) with
    | some (idref, rest) => idref :: spineScanGo fuel rest
    | none => spineScanGo fuel cs

def spineScan (s : Str) : List Str := spineScanGo (s.length + 1) s

/-- Models opfPath.substring(0, opfPath.lastIndexOf(slash) + 1). -/
def opfDirOf (p : Str) : Str := ((p.reverse).dropWhile (fun c => c ≠ '/')).reverse

/-- Models contents.file(path): exact-path lookup in the archive. -/
def zipFile? (entries : List (Str × Str)) (p : Str) : Option Str :=
  (entries.find? (fun e => e.1 = p)).map (fun e => e.2)

/-- Shared accumulator of the extraction loops: chapter list, concatenated
content, running word count, chapter break offsets. -/
structure ExtractAcc where
  chapters : List Chapter
  full : Str
  wc : Nat
  breaks : List Nat
  deriving DecidableEq

/-- Chapter-title preference of the EPUB loop: first h1, else first h2, else
the title tag, else a synthetic name from the spine position (the matched
captures are nonempty, so the JavaScript truthiness chain picks the first
successful capture). -/
def epubChapterTitle (i : Nat) (content : Str) : Str :=
  match tagCapture ("h1".data) content with
  | some t => t
  | none =>
    match tagCapture ("h2".data) content with
    | some t => t
    | none =>
      match tagCapture ("title".data) content with
      | some t => t
      | none => "Chapter ".data ++ natStr (i + 1)

/-- The spine-order extraction loop of parseEpub. -/
def epubLoop (zip : List (Str × Str)) (manifest : Str → Option Str) (opfDir : Str) :
    List Str → Nat → ExtractAcc → ExtractAcc
  | [], _, acc => acc
  | itemId :: rest, i, acc =>
    match manifest itemId with
    | none => epubLoop zip manifest opfDir rest (i + 1) acc
    | some href =>
      if !(endsWithL (".html".data) href || endsWithL (".xhtml".data) href ||
           endsWithL (".htm".data) href) then
        epubLoop zip manifest opfDir rest (i + 1) acc
      else
        match zipFile? zip (opfDir ++ href) with
        | none => epubLoop zip manifest opfDir rest (i + 1) acc
        | some cc =>
          let acc1 := { acc with
            chapters := acc.chapters ++ [⟨jsTrim (epubChapterTitle i cc), acc.wc⟩] }
          let text := stripHtml cc
          let ws := tokensOf text
          if ws.isEmpty then epubLoop zip manifest opfDir rest (i + 1) acc1
          else
            epubLoop zip manifest opfDir rest (i + 1)
              { acc1 with
                full := acc1.full ++ text ++ [' '],
                wc := acc1.wc + ws.length,
                breaks := acc1.breaks ++ [acc1.wc + ws.length] }

/-- Models parseEpub; the archive is the list of entry paths with their
decoded text. -/
def parseEpubModel (fileName : Str) (zip : List (Str × Str)) : Except ParseErr ParsedBook :=
  match zipFile? zip ("META-INF/container.xml".data) with
  | none => .error .invalidContainerMissing
  | some containerXml =>
    match fullPathCapture containerXml with
    | none => .error .invalidContainerNoPath
    | some opfPath =>
      let opfDir := opfDirOf opfPath
      match zipFile? zip opfPath with
      | none => .error .invalidPackage
      | some opf =>
        let title :=
          match tagCapture ("dc:title".data) opf with
          | some t => jsTrim t
          | none => replaceFirstL (".epub".data) [] fileName
        let author :=
          match tagCapture ("dc:creator".data) opf with
          | some a => jsTrim a
          | none => "Unknown Author".data
        let manifest := buildManifest (manifestScan opf)
        let spine := spineScan opf
        let acc := epubLoop zip manifest opfDir spine 0 ⟨[], [], 0, [0]⟩
        .ok ⟨⟨title, author, acc.chapters⟩, jsTrim acc.full, acc.breaks⟩

/-- Abstraction of an opened PDF document: optional embedded metadata (a
string option models the truthiness check on the Info fields) and the list
of pages, each page being the list of its text-run strings. -/
structure PdfDoc where
  infoTitle : Option Str
  infoAuthor : Option Str
  pages : List (List Str)
  deriving DecidableEq

/-- JavaScript truthiness for the metadata override: an absent or empty
string keeps the default. -/
def orDefaultStr (v : Option Str) (d : Str) : Str :=
  match v with
  | some t => if t.isEmpty then d else t
  | none => d

/-- The per-page text of parsePdf: join the runs with spaces, collapse
whitespace, trim. -/
def pageTextOf (items : List Str) : Str :=
  jsTrim (collapseWs (List.intercalate [' '] items))

/-- The page loop of parsePdf: chapter markers on page one and on every
multiple of twenty, content and word count on nonempty pages, a chapter
break only on nonempty pages whose number is a multiple of twenty. -/
def pdfLoop : List (List Str) → Nat → ExtractAcc → ExtractAcc
  | [], _, acc => acc
  | pg :: rest, pageNum, acc =>
    let acc1 :=
      if pageNum = 1 ∨ pageNum % 20 = 0 then
        { acc with chapters := acc.chapters ++ [⟨"Page ".data ++ natStr pageNum, acc.wc⟩] }
      else acc
    let pt := pageTextOf pg
    if pt.isEmpty then pdfLoop rest (pageNum + 1) acc1
    else
      let ws := tokensOf pt
      let wc2 := acc1.wc + ws.length
      let acc2 := { acc1 with full := acc1.full ++ pt ++ [' '], wc := wc2 }
      let acc3 := if pageNum % 20 = 0 then { acc2 with breaks := acc2.breaks ++ [wc2] } else acc2
      pdfLoop rest (pageNum + 1) acc3

/-- Models parsePdf (failed metadata extraction is already absorbed into the
optional PdfDoc fields, as the source swallows it). -/
def parsePdfModel (fileName : Str) (doc : PdfDoc) : Except ParseErr ParsedBook :=
  let title := orDefaultStr doc.infoTitle (replaceFirstL (".pdf".data) [] fileName)
  let author := orDefaultStr doc.infoAuthor ("Unknown Author".data)
  let acc := pdfLoop doc.pages 1 ⟨[], [], 0, [0]⟩
  if (jsTrim acc.full).isEmpty then .error .emptyDocument
  else .ok ⟨⟨title, author, acc.chapters⟩, jsTrim acc.full, acc.breaks⟩

/-- Chapter-heading test of parseTxt on a trimmed line: starts with
chapter-space after lowercasing, or matches the anchored part, book or
section keyword followed by whitespace and a digit (case-insensitively), or
is a short line equal to its own uppercasing. -/
def wsThenDigit (r : Str) : Bool :=
  (!(r.takeWhile (fun c => isWs c)).isEmpty) &&
    (match r.dropWhile (fun c => isWs c) with
     | d :: _ => d.isDigit
     | [] => false)

def headingKeywordNum (s : Str) : Bool :=
  match ciDrop? ("part".data) s with
  | some r => wsThenDigit r
  | none =>
  match ciDrop? ("book".data) s with
  | some r => wsThenDigit r
  | none =>
  match ciDrop? ("section".data) s with
  | some r => wsThenDigit r
  | none => false

def isHeadingLine (trimmed : Str) : Bool :=
  hasPre ("chapter ".data) (toLowerL trimmed) ||
  headingKeywordNum trimmed ||
  (decide (trimmed.length < 50) && trimmed == toUpperL trimmed && decide (3 < trimmed.length))

/-- The line loop of parseTxt: state is chapters, running word count,
chapter breaks. -/
def txtLoop : List Str → (List Chapter × Nat × List Nat) → (List Chapter × Nat × List Nat)
  | [], st => st
  | line :: rest, (chs, wc, brs) =>
    let trimmed := jsTrim line
    let st1 :=
      if isHeadingLine trimmed then (chs ++ [⟨trimmed, wc⟩], wc, brs ++ [wc])
      else (chs, wc, brs)
    txtLoop rest (st1.1, st1.2.1 + countWords trimmed, st1.2.2)

/-- The synthetic-section loop of parseTxt: while i is below the total,
emit Section floor(i by 2000) plus one at index i and advance i by 2000.
Fuel bounds the number of steps; total plus one steps always suffice. -/
def synthFrom : Nat → Nat → Nat → List Chapter
  | 0, _, _ => []
  | fuel + 1, total, i =>
    if i < total then ⟨"Section ".data ++ natStr (i / 2000 + 1), i⟩ :: synthFrom fuel total (i + 2000)
    else []

def synthChapters (total : Nat) : List Chapter := synthFrom (total + 1) total 0

/-- Models parseTxt. -/
def parseTxtModel (fileName content : Str) : ParsedBook :=
  let title := replaceFirstL (".txt".data) [] fileName
  let lines := splitOnChar '\n' content
  let st := txtLoop lines ([], 0, [0])
  let chapters := if st.1.isEmpty then synthChapters (countWords content) else st.1
  ⟨⟨title, "Unknown Author".data, chapters⟩, jsTrim content, st.2.2⟩

/-- Abstraction of the File object handed to parseBookFile: the name plus
the content views each parser would read from it. -/
structure JsFile where
  name : Str
  zipEntries : List (Str × Str)
  pdfDoc : PdfDoc
  text : Str

/-- Models file.name.toLowerCase().split(dot).pop(). -/
def extOf (name : Str) : Str := (splitOnChar '.' (toLowerL name)).getLastD []

/-- Models parseBookFile: dispatch on the lowercased extension, otherwise an
UnsupportedFormat error carrying the extension. -/
def parseBookFileModel (f : JsFile) : Except ParseErr ParsedBook :=
  let ext := extOf f.name
  if ext = "epub".data then parseEpubModel f.name f.zipEntries
  else if ext = "pdf".data then parsePdfModel f.name f.pdfDoc
  else if ext = "txt".data then .ok (parseTxtModel f.name f.text)
  else .error (.unsupportedFormat ext)

/-- Minimal EPUB archive: one container descriptor, one package document
with a single manifest item and spine entry, one HTML chapter. -/
def c2Container : Str :=
  ("<?xml version=\"1.0\"?><container><rootfiles><rootfile " ++
   "full-path=\"OEBPS/content.opf\" media-type=\"application/oebps-package+xml\"/>" ++
   "</rootfiles></container>").data

def c2Opf : Str :=
  ("<package><manifest><item id=\"ch1\" href=\"intro.html\" " ++
   "media-type=\"application/xhtml+xml\"/></manifest>" ++
   "<spine><itemref idref=\"ch1\"/></spine></package>").data

def c2Chapter : Str := "<h1>Intro</h1><p>Hello world</p>".data

def c2Zip : List (Str × Str) :=
  [("META-INF/container.xml".data, c2Container),
   ("OEBPS/content.opf".data, c2Opf),
   ("OEBPS/intro.html".data, c2Chapter)]

/-- The ParsedBook that the model produces on the minimal archive. -/
def c2Book : ParsedBook :=
  ⟨⟨"book".data, "Unknown Author".data, [⟨"Intro".data, 0⟩]⟩,
   "Intro Hello world".data, [0, 3]⟩

/-- Package document with two manifest items sharing the id a. -/
def c1Opf : Str :=
  ("<package><manifest><item id=\"a\" href=\"one.xhtml\"/>" ++
   "<item id=\"a\" href=\"two.xhtml\"/></manifest>" ++
   "<spine><itemref idref=\"a\"/></spine></package>").data

/-- A line of n words of one letter each, separated by single spaces. -/
def repWords : Nat → Str
  | 0 => []
  | 1 => ['a']
  | n + 2 => 'a' :: ' ' :: repWords (n + 1)

def c5Content : Str := repWords 2001

/-- One-page PDF document used as a witness input. -/
def pdfDocW : PdfDoc := ⟨none, none, [["hello".data]]⟩

def pdfBookW : ParsedBook :=
  ⟨⟨"b".data, "Unknown Author".data, [⟨"Page 1".data, 0⟩]⟩, "hello".data, [0]⟩

/-- PDF document whose single page has no extractable text. -/
def pdfDocEmpty : PdfDoc := ⟨none, none, [["  ".data]]⟩

/-- File with no extension. -/
def fBook : JsFile := ⟨"book".data, [], ⟨none, none, []⟩, []⟩

/-- Content used by witnesses with exactly 4500 words. -/
def c6Content : Str := repWords 4500

/-- Sum of the word counts of the trimmed lines; the running word count of
the parseTxt loop after all lines. -/
def sumTrimWords (lines : List Str) : Nat :=
  (lines.map (fun l => countWords (jsTrim l))).sum

/-- Invariant of the extraction accumulators: the concatenated content is
empty or ends in a space, the word count equals the token count of the
content, and the chapter breaks are nonempty, start at zero, are
non-decreasing and bounded by the word count. -/
def AccInv (acc : ExtractAcc) : Prop :=
  (acc.full = [] ∨ ∃ a, acc.full = a ++ [' ']) ∧
  acc.wc = countWords acc.full ∧
  acc.breaks ≠ [] ∧
  acc.breaks.head? = some 0 ∧
  List.Chain' (fun x y => x ≤ y) acc.breaks ∧
  (∀ x ∈ acc.breaks, x ≤ acc.wc)

/-- The chapter-break invariant claimed for every parser result. -/
def BreaksInv (b : ParsedBook) : Prop :=
  1 ≤ b.chapterBreaks.length ∧
  b.chapterBreaks.head? = some 0 ∧
  List.Chain' (fun x y => x ≤ y) b.chapterBreaks ∧
  ∀ x ∈ b.chapterBreaks, x ≤ countWords b.content

/-- Total word count of the first p pages of a PDF document. -/
def pageWords (pages : List (List Str)) (p : Nat) : Nat :=
  ((pages.take p).map (fun pg => countWords (pageTextOf pg))).sum

/-- The concatenated content the PDF page loop accumulates. -/
def concatPages : List (List Str) → Str
  | [] => []
  | pg :: rest =>
    if (pageTextOf pg).isEmpty then concatPages rest
    else pageTextOf pg ++ ' ' :: concatPages rest

/-- Everything in a parse result except the metadata title. -/
def stripTitle (b : ParsedBook) : Str × List Chapter × Str × List Nat :=
  (b.metadata.author, b.metadata.chapters, b.content, b.chapterBreaks)

deriving instance DecidableEq for Except

theorem wsSplit_ne_nil (s : Str) : wsSplit s ≠ [] := by
  cases s with
  | nil => simp [wsSplit]
  | cons c cs =>
    simp only [wsSplit]
    split
    · simp
    · split <;> simp

theorem wsSplit_cons_ws (c : Char) (s : Str) (h : isWs c = true) :
    wsSplit (c :: s) = [] :: wsSplit s := by
  simp [wsSplit, h]

theorem exists_cons_wsSplit (s : Str) : ∃ t ts, wsSplit s = t :: ts := by
  cases h : wsSplit s with
  | nil => exact absurd h (wsSplit_ne_nil s)
  | cons t ts => exact ⟨t, ts, rfl⟩

theorem wsSplit_cons_not (c : Char) (s : Str) (h : isWs c = false) :
    wsSplit (c :: s) = (c :: (wsSplit s).headD []) :: (wsSplit s).tail := by
  obtain ⟨t, ts, h2⟩ := exists_cons_wsSplit s
  simp [wsSplit, h, h2]

theorem getLastD_irrel (l : List Str) (h : l ≠ []) (d1 d2 : Str) :
    l.getLastD d1 = l.getLastD d2 := by
  cases l with
  | nil => exact absurd rfl h
  | cons a t => rw [List.getLastD_cons, List.getLastD_cons]

theorem dropLast_append_getLastD (l : List Str) (h : l ≠ []) (d : Str) :
    l.dropLast ++ [l.getLastD d] = l := by
  induction l generalizing d with
  | nil => exact absurd rfl h
  | cons a t ih =>
    cases t with
    | nil => simp [List.getLastD_cons]
    | cons b u =>
      have := ih (by simp) a
      simp only [List.getLastD_cons] at this ⊢
      simpa using this

theorem wsSplit_append (a b : Str) :
    wsSplit (a ++ b) =
      (wsSplit a).dropLast ++
        ((wsSplit a).getLastD [] ++ (wsSplit b).headD []) :: (wsSplit b).tail := by
  induction a with
  | nil =>
    obtain ⟨t, ts, hb⟩ := exists_cons_wsSplit b
    simp [wsSplit, hb]
  | cons c a' ih =>
    by_cases hc : isWs c
    · obtain ⟨t, ts, hw⟩ := exists_cons_wsSplit a'
      rw [List.cons_append, wsSplit_cons_ws c (a' ++ b) hc, ih,
          wsSplit_cons_ws c a' hc, hw]
      simp [List.getLastD_cons]
    · have hc' : isWs c = false := by simpa using hc
      obtain ⟨t, ts, hw⟩ := exists_cons_wsSplit a'
      rw [List.cons_append, wsSplit_cons_not c (a' ++ b) hc', ih,
          wsSplit_cons_not c a' hc', hw]
      cases ts with
      | nil =>
        obtain ⟨u, us, hb⟩ := exists_cons_wsSplit b
        simp [List.getLastD_cons]
      | cons u us =>
        have hirr : (u :: us).getLastD t = (u :: us).getLastD (c :: t) :=
          getLastD_irrel (u :: us) (by simp) t (c :: t)
        simp only [List.headD_cons, List.tail_cons, List.dropLast_cons₂,
          List.getLastD_cons, List.cons_append, hirr]

theorem tokensOf_cons_ws (c : Char) (s : Str) (h : isWs c = true) :
    tokensOf (c :: s) = tokensOf s := by
  simp [tokensOf, wsSplit_cons_ws c s h]

theorem tokensOf_sep (a b : Str) (w : Char) (hw : isWs w = true) :
    tokensOf (a ++ w :: b) = tokensOf a ++ tokensOf b := by
  unfold tokensOf
  rw [wsSplit_append a (w :: b), wsSplit_cons_ws w b hw]
  simp only [List.headD_cons, List.tail_cons, List.append_nil]
  rw [show (wsSplit a).dropLast ++ ((wsSplit a).getLastD []) :: wsSplit b
        = ((wsSplit a).dropLast ++ [(wsSplit a).getLastD []]) ++ wsSplit b by simp]
  rw [dropLast_append_getLastD (wsSplit a) (wsSplit_ne_nil a) []]
  rw [List.filter_append]

theorem tokensOf_allWs (t : Str) (h : ∀ c ∈ t, isWs c = true) : tokensOf t = [] := by
  induction t with
  | nil => rfl
  | cons c u ih =>
    rw [tokensOf_cons_ws c u (h c (by simp))]
    exact ih (fun x hx => h x (by simp [hx]))

theorem tokensOf_append_allWs (s t : Str) (h : ∀ c ∈ t, isWs c = true) :
    tokensOf (s ++ t) = tokensOf s := by
  induction t generalizing s with
  | nil => simp
  | cons w u ih =>
    rw [tokensOf_sep s u w (h w (by simp))]
    rw [tokensOf_allWs u (fun x hx => h x (by simp [hx]))]
    simp

theorem tokensOf_allWs_append (t s : Str) (h : ∀ c ∈ t, isWs c = true) :
    tokensOf (t ++ s) = tokensOf s := by
  induction t with
  | nil => simp
  | cons w u ih =>
    rw [List.cons_append, tokensOf_cons_ws w (u ++ s) (h w (by simp))]
    exact ih (fun x hx => h x (by simp [hx]))

theorem tokensOf_trimL (s : Str) : tokensOf (trimL s) = tokensOf s := by
  conv_rhs => rw [show s = s.takeWhile (fun c => isWs c) ++ s.dropWhile (fun c => isWs c) by
    rw [List.takeWhile_append_dropWhile]]
  rw [tokensOf_allWs_append _ _ (fun c hc => List.mem_takeWhile_imp hc)]
  rfl

theorem trimR_decomp (s : Str) :
    s = trimR s ++ (s.reverse.takeWhile (fun c => isWs c)).reverse := by
  conv_lhs =>
    rw [← List.reverse_reverse s,
      ← List.takeWhile_append_dropWhile (p := fun c => isWs c) (l := s.reverse)]
  rw [List.reverse_append]
  rfl

theorem tokensOf_trimR (s : Str) : tokensOf (trimR s) = tokensOf s := by
  conv_rhs => rw [trimR_decomp s]
  rw [tokensOf_append_allWs]
  intro c hc
  rw [List.mem_reverse] at hc
  exact List.mem_takeWhile_imp hc

theorem tokensOf_jsTrim (s : Str) : tokensOf (jsTrim s) = tokensOf s := by
  rw [jsTrim, tokensOf_trimR, tokensOf_trimL]

theorem countWords_jsTrim (s : Str) : countWords (jsTrim s) = countWords s := by
  rw [countWords, countWords, tokensOf_jsTrim]

theorem headD_wsSplit_isEmpty (s : Str) :
    ((wsSplit s).headD []).isEmpty = startsWsB s := by
  cases s with
  | nil => rfl
  | cons c cs =>
    by_cases hc : isWs c
    · rw [wsSplit_cons_ws c cs hc]
      simp [startsWsB, hc]
    · have hc' : isWs c = false := by simpa using hc
      rw [wsSplit_cons_not c cs hc']
      simp [startsWsB, hc']

theorem countWords_cons_nws (c : Char) (s : Str) (h : isWs c = false) :
    countWords (c :: s) = countWords s + (if startsWsB s then 1 else 0) := by
  obtain ⟨t, ts, hw⟩ := exists_cons_wsSplit s
  have hh := headD_wsSplit_isEmpty s
  rw [hw] at hh
  simp only [List.headD_cons] at hh
  rw [countWords, countWords, tokensOf, tokensOf, wsSplit_cons_not c s h, hw]
  simp only [List.headD_cons, List.tail_cons, List.filter_cons]
  by_cases ht : t.isEmpty
  · have hs : startsWsB s = true := by rw [← hh, ht]
    simp [hs, ht, List.isEmpty_iff.mp ht]
  · have ht' : t.isEmpty = false := by simpa using ht
    have hs : startsWsB s = false := by rw [← hh, ht']
    simp [hs, ht']

theorem countWords_cons_ws (c : Char) (s : Str) (h : isWs c = true) :
    countWords (c :: s) = countWords s := by
  rw [countWords, countWords, tokensOf_cons_ws c s h]

theorem splitOnChar_ne_nil (sep : Char) (s : Str) : splitOnChar sep s ≠ [] := by
  cases s with
  | nil => simp [splitOnChar]
  | cons c cs =>
    simp only [splitOnChar]
    split <;> simp

theorem exists_cons_splitOnChar (sep : Char) (s : Str) :
    ∃ t ts, splitOnChar sep s = t :: ts := by
  cases h : splitOnChar sep s with
  | nil => exact absurd h (splitOnChar_ne_nil sep s)
  | cons t ts => exact ⟨t, ts, rfl⟩

theorem startsWsB_headLine (s : Str) :
    startsWsB ((splitOnChar '\n' s).headD []) = startsWsB s := by
  cases s with
  | nil => rfl
  | cons c cs =>
    by_cases hc : c = '\n'
    · subst hc
      simp [splitOnChar, startsWsB]
      rfl
    · obtain ⟨t, ts, hw⟩ := exists_cons_splitOnChar '\n' cs
      simp [splitOnChar, hc, startsWsB]

/-- The word count of a string is the sum of the word counts of its
newline-separated lines. -/
theorem sum_countWords_split (s : Str) :
    ((splitOnChar '\n' s).map countWords).sum = countWords s := by
  induction s with
  | nil => rfl
  | cons c cs ih =>
    obtain ⟨t, ts, hw⟩ := exists_cons_splitOnChar '\n' cs
    by_cases hc : c = '\n'
    · subst hc
      rw [show splitOnChar '\n' ('\n' :: cs) = [] :: splitOnChar '\n' cs by simp [splitOnChar]]
      rw [List.map_cons, List.sum_cons, ih, countWords_cons_ws '\n' cs (by decide)]
      simp only [countWords, tokensOf]
      rw [show wsSplit ([] : Str) = [[]] from rfl]
      simp
    · have hsplit : splitOnChar '\n' (c :: cs) = (c :: t) :: ts := by
        simp [splitOnChar, hc, hw]
      rw [hsplit, List.map_cons, List.sum_cons]
      rw [hw, List.map_cons, List.sum_cons] at ih
      by_cases hcw : isWs c
      · rw [countWords_cons_ws c t hcw, countWords_cons_ws c cs hcw, ih]
      · have hcw' : isWs c = false := by simpa using hcw
        rw [countWords_cons_nws c t hcw', countWords_cons_nws c cs hcw']
        have hW : startsWsB t = startsWsB cs := by
          have := startsWsB_headLine cs
          rw [hw] at this
          simpa using this
        rw [hW, ← ih]
        ring

/-- The heading state of each line equals the heading state computed on the
trimmed line word counts (trimming does not change token counts), so the sum
over trimmed lines also equals the total word count. -/
theorem sum_countWords_trim_split (s : Str) :
    ((splitOnChar '\n' s).map (fun l => countWords (jsTrim l))).sum = countWords s := by
  rw [show ((splitOnChar '\n' s).map (fun l => countWords (jsTrim l)))
        = ((splitOnChar '\n' s).map countWords) by
      apply List.map_congr_left
      intro l _
      exact countWords_jsTrim l]
  exact sum_countWords_split s

theorem txtLoop_spec (lines : List Str) :
    ∀ (chs : List Chapter) (wc : Nat) (brs : List Nat),
      ∃ γ δ,
        txtLoop lines (chs, wc, brs) = (chs ++ γ, wc + sumTrimWords lines, brs ++ δ) ∧
        (∀ x ∈ δ, wc ≤ x ∧ x ≤ wc + sumTrimWords lines) ∧
        List.Chain' (fun x y => x ≤ y) δ := by
  induction lines with
  | nil =>
    intro chs wc brs
    exact ⟨[], [], by simp [txtLoop, sumTrimWords], by simp, by simp⟩
  | cons line rest ih =>
    intro chs wc brs
    have hsum : sumTrimWords (line :: rest)
        = countWords (jsTrim line) + sumTrimWords rest := by
      simp [sumTrimWords]
    by_cases hH : isHeadingLine (jsTrim line)
    · obtain ⟨γ, δ, hEq, hB, hC⟩ :=
        ih (chs ++ [⟨jsTrim line, wc⟩]) (wc + countWords (jsTrim line)) (brs ++ [wc])
      refine ⟨⟨jsTrim line, wc⟩ :: γ, wc :: δ, ?_, ?_, ?_⟩
      · rw [show txtLoop (line :: rest) (chs, wc, brs)
            = txtLoop rest (chs ++ [⟨jsTrim line, wc⟩],
                wc + countWords (jsTrim line), brs ++ [wc]) by simp [txtLoop, hH]]
        rw [hEq, hsum]
        simp [Nat.add_assoc]
      · intro x hx
        rcases List.mem_cons.mp hx with hx | hx
        · constructor <;> omega
        · obtain ⟨h1, h2⟩ := hB x hx
          constructor <;> omega
      · rw [List.chain'_cons']
        refine ⟨?_, hC⟩
        intro y hy
        obtain ⟨h1, _⟩ := hB y (List.mem_of_mem_head? hy)
        omega
    · have hH' : isHeadingLine (jsTrim line) = false := by simpa using hH
      obtain ⟨γ, δ, hEq, hB, hC⟩ := ih chs (wc + countWords (jsTrim line)) brs
      refine ⟨γ, δ, ?_, ?_, hC⟩
      · rw [show txtLoop (line :: rest) (chs, wc, brs)
            = txtLoop rest (chs, wc + countWords (jsTrim line), brs) by
              simp [txtLoop, hH']]
        rw [hEq, hsum]
        simp [Nat.add_assoc]
      · intro x hx
        obtain ⟨h1, h2⟩ := hB x hx
        constructor <;> omega

theorem txtLoop_no_heading (lines : List Str)
    (h : ∀ l ∈ lines, isHeadingLine (jsTrim l) = false) :
    ∀ chs wc brs, txtLoop lines (chs, wc, brs) = (chs, wc + sumTrimWords lines, brs) := by
  induction lines with
  | nil =>
    intro chs wc brs
    simp [txtLoop, sumTrimWords]
  | cons line rest ih =>
    intro chs wc brs
    have h0 : isHeadingLine (jsTrim line) = false := h line (by simp)
    rw [show txtLoop (line :: rest) (chs, wc, brs)
        = txtLoop rest (chs, wc + countWords (jsTrim line), brs) by simp [txtLoop, h0]]
    rw [ih (fun l hl => h l (by simp [hl]))]
    have : sumTrimWords (line :: rest) = countWords (jsTrim line) + sumTrimWords rest := by
      simp [sumTrimWords]
    rw [this]
    simp [Nat.add_assoc]

theorem txtLoop_heading_mem (lines : List Str) :
    ∀ (i : Nat) (line : Str) (chs : List Chapter) (wc : Nat) (brs : List Nat),
      lines.get? i = some line →
      isHeadingLine (jsTrim line) = true →
      (⟨jsTrim line, wc + sumTrimWords (lines.take i)⟩ ∈ (txtLoop lines (chs, wc, brs)).1) ∧
      (wc + sumTrimWords (lines.take i)) ∈ (txtLoop lines (chs, wc, brs)).2.2 := by
  induction lines with
  | nil =>
    intro i line chs wc brs hget
    simp at hget
  | cons l rest ih =>
    intro i line chs wc brs hget hH
    cases i with
    | zero =>
      simp only [List.get?] at hget
      injection hget with hget
      subst hget
      rw [show txtLoop (l :: rest) (chs, wc, brs)
          = txtLoop rest (chs ++ [⟨jsTrim l, wc⟩],
              wc + countWords (jsTrim l), brs ++ [wc]) by simp [txtLoop, hH]]
      obtain ⟨γ, δ, hEq, _, _⟩ :=
        txtLoop_spec rest (chs ++ [⟨jsTrim l, wc⟩])
          (wc + countWords (jsTrim l)) (brs ++ [wc])
      rw [hEq]
      constructor
      · simp [List.take, sumTrimWords]
      · simp [List.take, sumTrimWords]
    | succ i' =>
      simp only [List.get?] at hget
      have hterm : sumTrimWords ((l :: rest).take (i' + 1))
          = countWords (jsTrim l) + sumTrimWords (rest.take i') := by
        simp [sumTrimWords]
      by_cases h0 : isHeadingLine (jsTrim l)
      · rw [show txtLoop (l :: rest) (chs, wc, brs)
            = txtLoop rest (chs ++ [⟨jsTrim l, wc⟩],
                wc + countWords (jsTrim l), brs ++ [wc]) by simp [txtLoop, h0]]
        have := ih i' line (chs ++ [⟨jsTrim l, wc⟩])
          (wc + countWords (jsTrim l)) (brs ++ [wc]) hget hH
        rw [hterm]
        constructor
        · have h1 := this.1
          rw [show wc + (countWords (jsTrim l) + sumTrimWords (rest.take i'))
              = wc + countWords (jsTrim l) + sumTrimWords (rest.take i') by omega]
          exact h1
        · have h2 := this.2
          rw [show wc + (countWords (jsTrim l) + sumTrimWords (rest.take i'))
              = wc + countWords (jsTrim l) + sumTrimWords (rest.take i') by omega]
          exact h2
      · have h0' : isHeadingLine (jsTrim l) = false := by simpa using h0
        rw [show txtLoop (l :: rest) (chs, wc, brs)
            = txtLoop rest (chs, wc + countWords (jsTrim l), brs) by simp [txtLoop, h0']]
        have := ih i' line chs (wc + countWords (jsTrim l)) brs hget hH
        rw [hterm]
        constructor
        · have h1 := this.1
          rw [show wc + (countWords (jsTrim l) + sumTrimWords (rest.take i'))
              = wc + countWords (jsTrim l) + sumTrimWords (rest.take i') by omega]
          exact h1
        · have h2 := this.2
          rw [show wc + (countWords (jsTrim l) + sumTrimWords (rest.take i'))
              = wc + countWords (jsTrim l) + sumTrimWords (rest.take i') by omega]
          exact h2

theorem countWords_append_endsSpace (s t : Str)
    (h : s = [] ∨ ∃ a, s = a ++ [' ']) :
    countWords (s ++ t) = countWords s + countWords t := by
  rcases h with h | ⟨a, h⟩
  · subst h
    have h0 : countWords ([] : Str) = 0 := by decide
    simp [h0]
  · subst h
    rw [show (a ++ [' ']) ++ t = a ++ ' ' :: t by simp]
    have h1 : countWords (a ++ [' ']) = countWords a := by
      rw [countWords, countWords,
        tokensOf_append_allWs a [' '] (by intro c hc; simp at hc; subst hc; decide)]
    rw [h1, countWords, countWords, countWords, tokensOf_sep a t ' ' (by decide)]
    simp

theorem countWords_concat_space (s t : Str)
    (h : s = [] ∨ ∃ a, s = a ++ [' ']) :
    countWords (s ++ t ++ [' ']) = countWords s + countWords t := by
  have h2 : countWords (t ++ [' ']) = countWords t := by
    rw [countWords, countWords,
      tokensOf_append_allWs t [' '] (by intro c hc; simp at hc; subst hc; decide)]
  rw [List.append_assoc, countWords_append_endsSpace s (t ++ [' ']) h, h2]

theorem mem_of_getLast_opt (l : List Nat) (x : Nat) (h : l.getLast? = some x) : x ∈ l := by
  induction l with
  | nil => simp at h
  | cons a t ih =>
    cases t with
    | nil =>
      simp [List.getLast?] at h
      simp [h]
    | cons b u =>
      rw [List.getLast?_cons_cons] at h
      simp [ih h]

theorem AccInv_chapters (acc : ExtractAcc) (chs : List Chapter) (h : AccInv acc) :
    AccInv { acc with chapters := chs } := h

theorem AccInv_addText (acc : ExtractAcc) (h : AccInv acc) (t : Str) (chs : List Chapter) :
    AccInv ⟨chs, acc.full ++ t ++ [' '], acc.wc + countWords t, acc.breaks⟩ := by
  obtain ⟨hfull, hwc, hne, hhd, hch, hbd⟩ := h
  refine ⟨?_, ?_, hne, hhd, hch, ?_⟩
  · right
    exact ⟨acc.full ++ t, by rw [List.append_assoc]⟩
  · rw [countWords_concat_space acc.full t hfull, hwc]
  · intro x hx
    have := hbd x hx
    dsimp only
    omega

theorem AccInv_pushBreak (acc : ExtractAcc) (h : AccInv acc) :
    AccInv { acc with breaks := acc.breaks ++ [acc.wc] } := by
  obtain ⟨hfull, hwc, hne, hhd, hch, hbd⟩ := h
  refine ⟨hfull, hwc, by simp, ?_, ?_, ?_⟩
  · cases hb : acc.breaks with
    | nil => exact absurd hb hne
    | cons b bs =>
      rw [hb] at hhd
      simpa using hhd
  · rw [List.chain'_append]
    refine ⟨hch, List.chain'_singleton _, ?_⟩
    intro x hx y hy
    simp at hy
    subst hy
    exact hbd x (mem_of_getLast_opt acc.breaks x hx)
  · intro x hx
    rcases List.mem_append.mp hx with hx | hx
    · have := hbd x hx
      dsimp only
      omega
    · simp at hx
      dsimp only
      omega

theorem epubLoop_AccInv (zip : List (Str × Str)) (man : Str → Option Str) (opfDir : Str)
    (spine : List Str) :
    ∀ (i : Nat) (acc : ExtractAcc), AccInv acc →
      AccInv (epubLoop zip man opfDir spine i acc) := by
  induction spine with
  | nil =>
    intro i acc h
    simpa [epubLoop] using h
  | cons itemId rest ih =>
    intro i acc h
    simp only [epubLoop]
    split
    · exact ih _ acc h
    · split
      · exact ih _ acc h
      · split
        · exact ih _ acc h
        · split
          · exact ih _ _ (AccInv_chapters acc _ h)
          · exact ih _ _ (AccInv_pushBreak _ (AccInv_addText acc h _ _))

theorem pdfLoop_AccInv (pages : List (List Str)) :
    ∀ (pageNum : Nat) (acc : ExtractAcc), AccInv acc →
      AccInv (pdfLoop pages pageNum acc) := by
  induction pages with
  | nil =>
    intro pageNum acc h
    simpa [pdfLoop] using h
  | cons pg rest ih =>
    intro pageNum acc h
    simp only [pdfLoop]
    have h1 : AccInv (if pageNum = 1 ∨ pageNum % 20 = 0 then
        { acc with chapters := acc.chapters ++ [⟨"Page ".data ++ natStr pageNum, acc.wc⟩] }
      else acc) := by
      split
      · exact AccInv_chapters acc _ h
      · exact h
    split
    · exact ih _ _ h1
    · split
      · exact ih _ _ (AccInv_pushBreak _ (AccInv_addText _ h1 _ _))
      · exact ih _ _ (AccInv_addText _ h1 _ _)

theorem AccInv_init : AccInv ⟨[], [], 0, [0]⟩ := by
  refine ⟨Or.inl rfl, by decide, by simp, rfl, List.chain'_singleton 0, ?_⟩
  intro x hx
  simp at hx
  omega

theorem AccInv_toBreaksInv (acc : ExtractAcc) (h : AccInv acc) (meta : BookMetadata) :
    BreaksInv ⟨meta, jsTrim acc.full, acc.breaks⟩ := by
  obtain ⟨hfull, hwc, hne, hhd, hch, hbd⟩ := h
  refine ⟨?_, hhd, hch, ?_⟩
  · cases hb : acc.breaks with
    | nil => exact absurd hb hne
    | cons b bs => simp [hb]
  · intro x hx
    have := hbd x hx
    dsimp only
    rw [countWords_jsTrim]
    omega

/-- Claim C3: whenever parseEpub, parsePdf or parseTxt returns successfully,
the chapterBreaks list has length at least one, starts with zero, is
non-decreasing, and every element is at most the whitespace token count of
the returned content. -/
theorem C3_theorem :
    (∀ (name : Str) (zip : List (Str × Str)) (book : ParsedBook),
        parseEpubModel name zip = Except.ok book → BreaksInv book) ∧
    (∀ (name : Str) (doc : PdfDoc) (book : ParsedBook),
        parsePdfModel name doc = Except.ok book → BreaksInv book) ∧
    (∀ (name content : Str), BreaksInv (parseTxtModel name content)) := by
  refine ⟨?_, ?_, ?_⟩
  · intro name zip book hok
    unfold parseEpubModel at hok
    cases h1 : zipFile? zip ("META-INF/container.xml".data) with
    | none => rw [h1] at hok; cases hok
    | some containerXml =>
      rw [h1] at hok
      dsimp only at hok
      cases h2 : fullPathCapture containerXml with
      | none => rw [h2] at hok; cases hok
      | some opfPath =>
        rw [h2] at hok
        dsimp only at hok
        cases h3 : zipFile? zip opfPath with
        | none => rw [h3] at hok; cases hok
        | some opf =>
          rw [h3] at hok
          injection hok with hok
          subst hok
          exact AccInv_toBreaksInv _
            (epubLoop_AccInv zip _ _ _ 0 ⟨[], [], 0, [0]⟩ AccInv_init) _
  · intro name doc book hok
    unfold parsePdfModel at hok
    dsimp only at hok
    split at hok
    · cases hok
    · injection hok with hok
      subst hok
      exact AccInv_toBreaksInv _ (pdfLoop_AccInv doc.pages 1 ⟨[], [], 0, [0]⟩ AccInv_init) _
  · intro name content
    obtain ⟨γ, δ, hEq, hB, hC⟩ := txtLoop_spec (splitOnChar '\n' content) [] 0 [0]
    have hbr : (parseTxtModel name content).chapterBreaks = 0 :: δ := by
      show (txtLoop (splitOnChar '\n' content) ([], 0, [0])).2.2 = 0 :: δ
      rw [hEq]
      rfl
    have hcon : (parseTxtModel name content).content = jsTrim content := rfl
    refine ⟨?_, ?_, ?_, ?_⟩
    · rw [hbr]; simp
    · rw [hbr]; rfl
    · rw [hbr, List.chain'_cons']
      refine ⟨?_, hC⟩
      intro y _
      omega
    · intro x hx
      rw [hbr] at hx
      rw [hcon, countWords_jsTrim]
      rcases List.mem_cons.mp hx with hx | hx
      · omega
      · obtain ⟨_, h2⟩ := hB x hx
        have hS : sumTrimWords (splitOnChar '\n' content) = countWords content :=
          sum_countWords_trim_split content
        omega

/-- Witness for C3: the invariant instantiated on a concrete successful run
of each extractor. -/
theorem C3_witness :
    BreaksInv c2Book ∧ BreaksInv pdfBookW ∧
      BreaksInv (parseTxtModel ("a.txt".data) "hi".data) :=
  ⟨C3_theorem.1 ("book.epub".data) c2Zip c2Book (by decide),
   C3_theorem.2.1 ("b.pdf".data) pdfDocW pdfBookW (by decide),
   C3_theorem.2.2 ("a.txt".data) "hi".data⟩

theorem pageWords_cons (pg : List Str) (rest : List (List Str)) (k : Nat) :
    pageWords (pg :: rest) (k + 1) = countWords (pageTextOf pg) + pageWords rest k := by
  simp [pageWords]

theorem pdfLoop_full (pages : List (List Str)) :
    ∀ (pageNum : Nat) (acc : ExtractAcc),
      (pdfLoop pages pageNum acc).full = acc.full ++ concatPages pages := by
  induction pages with
  | nil =>
    intro pageNum acc
    simp [pdfLoop, concatPages]
  | cons pg rest ih =>
    intro pageNum acc
    by_cases hpt : (pageTextOf pg).isEmpty = true
    · rw [show pdfLoop (pg :: rest) pageNum acc = pdfLoop rest (pageNum + 1)
          (if pageNum = 1 ∨ pageNum % 20 = 0 then
            { acc with chapters := acc.chapters ++ [⟨"Page ".data ++ natStr pageNum, acc.wc⟩] }
          else acc) from by simp [pdfLoop, hpt]]
      rw [ih]
      rw [show concatPages (pg :: rest) = concatPages rest from by simp [concatPages, hpt]]
      split <;> rfl
    · have hpt' : (pageTextOf pg).isEmpty = false := by simpa using hpt
      have hcat : concatPages (pg :: rest)
          = pageTextOf pg ++ ' ' :: concatPages rest := by simp [concatPages, hpt']
      by_cases h20 : pageNum % 20 = 0
      · rw [show pdfLoop (pg :: rest) pageNum acc = pdfLoop rest (pageNum + 1)
            (let acc1 := if pageNum = 1 ∨ pageNum % 20 = 0 then
                { acc with chapters := acc.chapters ++ [⟨"Page ".data ++ natStr pageNum, acc.wc⟩] }
              else acc
             { acc1 with
               full := acc1.full ++ pageTextOf pg ++ [' '],
               wc := acc1.wc + (tokensOf (pageTextOf pg)).length,
               breaks := acc1.breaks ++ [acc1.wc + (tokensOf (pageTextOf pg)).length] })
            from by simp [pdfLoop, hpt', h20]]
        rw [ih, hcat]
        split <;> simp
      · rw [show pdfLoop (pg :: rest) pageNum acc = pdfLoop rest (pageNum + 1)
            (let acc1 := if pageNum = 1 ∨ pageNum % 20 = 0 then
                { acc with chapters := acc.chapters ++ [⟨"Page ".data ++ natStr pageNum, acc.wc⟩] }
              else acc
             { acc1 with
               full := acc1.full ++ pageTextOf pg ++ [' '],
               wc := acc1.wc + (tokensOf (pageTextOf pg)).length })
            from by simp [pdfLoop, hpt', h20]]
        rw [ih, hcat]
        split <;> simp

theorem pdfLoop_breaks (pages : List (List Str)) :
    ∀ (pageNum : Nat) (acc : ExtractAcc),
      ∃ δ, (pdfLoop pages pageNum acc).breaks = acc.breaks ++ δ ∧
        ∀ x ∈ δ, ∃ k, k < pages.length ∧ (pageNum + k) % 20 = 0 ∧
          x = acc.wc + pageWords pages (k + 1) := by
  induction pages with
  | nil =>
    intro pageNum acc
    exact ⟨[], by simp [pdfLoop], by simp⟩
  | cons pg rest ih =>
    intro pageNum acc
    set acc1 := (if pageNum = 1 ∨ pageNum % 20 = 0 then
        { acc with chapters := acc.chapters ++ [⟨"Page ".data ++ natStr pageNum, acc.wc⟩] }
      else acc) with hacc1def
    have hb1 : acc1.breaks = acc.breaks := by rw [hacc1def]; split <;> rfl
    have hw1 : acc1.wc = acc.wc := by rw [hacc1def]; split <;> rfl
    by_cases hpt : (pageTextOf pg).isEmpty = true
    · have hcw0 : countWords (pageTextOf pg) = 0 := by
        rw [List.isEmpty_iff.mp hpt]
        decide
      have hstep : pdfLoop (pg :: rest) pageNum acc = pdfLoop rest (pageNum + 1) acc1 := by
        rw [hacc1def]
        simp [pdfLoop, hpt]
      obtain ⟨δ, hδ, hx⟩ := ih (pageNum + 1) acc1
      refine ⟨δ, by rw [hstep, hδ, hb1], ?_⟩
      intro x hxmem
      obtain ⟨k, hk, h20, hval⟩ := hx x hxmem
      refine ⟨k + 1, by simp; omega, by omega, ?_⟩
      rw [pageWords_cons pg rest (k + 1), hcw0]
      rw [hval, hw1]
      omega
    · have hpt' : (pageTextOf pg).isEmpty = false := by simpa using hpt
      have hlen : (tokensOf (pageTextOf pg)).length = countWords (pageTextOf pg) := rfl
      by_cases h20 : pageNum % 20 = 0
      · have hstep : pdfLoop (pg :: rest) pageNum acc
            = pdfLoop rest (pageNum + 1)
              { acc1 with
                full := acc1.full ++ pageTextOf pg ++ [' '],
                wc := acc1.wc + (tokensOf (pageTextOf pg)).length,
                breaks := acc1.breaks ++ [acc1.wc + (tokensOf (pageTextOf pg)).length] } := by
          rw [hacc1def]
          simp [pdfLoop, hpt', h20]
        obtain ⟨δ, hδ, hx⟩ := ih (pageNum + 1)
          { acc1 with
            full := acc1.full ++ pageTextOf pg ++ [' '],
            wc := acc1.wc + (tokensOf (pageTextOf pg)).length,
            breaks := acc1.breaks ++ [acc1.wc + (tokensOf (pageTextOf pg)).length] }
        refine ⟨(acc.wc + countWords (pageTextOf pg)) :: δ, ?_, ?_⟩
        · rw [hstep, hδ]
          dsimp only
          rw [hb1, hw1, hlen, List.append_assoc]
          rfl
        · intro x hxmem
          rcases List.mem_cons.mp hxmem with hxe | hxmem
        
          · refine ⟨0, by simp, by simpa using h20, ?_⟩
            rw [pageWords_cons pg rest 0]
            have : pageWords rest 0 = 0 := by simp [pageWords]
            omega
          · obtain ⟨k, hk, hk20, hval⟩ := hx x hxmem
            refine ⟨k + 1, by simp; omega, by omega, ?_⟩
            rw [pageWords_cons pg rest (k + 1)]
            rw [hval]
            dsimp only
            rw [hw1, hlen]
            omega
      · have hstep : pdfLoop (pg :: rest) pageNum acc
            = pdfLoop rest (pageNum + 1)
              { acc1 with
                full := acc1.full ++ pageTextOf pg ++ [' '],
                wc := acc1.wc + (tokensOf (pageTextOf pg)).length } := by
          rw [hacc1def]
          simp [pdfLoop, hpt', h20]
        obtain ⟨δ, hδ, hx⟩ := ih (pageNum + 1)
          { acc1 with
            full := acc1.full ++ pageTextOf pg ++ [' '],
            wc := acc1.wc + (tokensOf (pageTextOf pg)).length }
        refine ⟨δ, ?_, ?_⟩
        · rw [hstep, hδ]
          dsimp only
          rw [hb1]
        · intro x hxmem
          obtain ⟨k, hk, hk20, hval⟩ := hx x hxmem
          refine ⟨k + 1, by simp; omega, by omega, ?_⟩
          rw [pageWords_cons pg rest (k + 1)]
          rw [hval]
          dsimp only
          rw [hw1, hlen]
          omega

theorem pdfLoop_chapters_append (pages : List (List Str)) :
    ∀ (pageNum : Nat) (acc : ExtractAcc),
      ∃ γ, (pdfLoop pages pageNum acc).chapters = acc.chapters ++ γ := by
  induction pages with
  | nil =>
    intro pageNum acc
    exact ⟨[], by simp [pdfLoop]⟩
  | cons pg rest ih =>
    intro pageNum acc
    set acc1 := (if pageNum = 1 ∨ pageNum % 20 = 0 then
        { acc with chapters := acc.chapters ++ [⟨"Page ".data ++ natStr pageNum, acc.wc⟩] }
      else acc) with hacc1def
    have hm : ∃ m, acc1.chapters = acc.chapters ++ m := by
      rw [hacc1def]
      split
      · exact ⟨_, rfl⟩
      · exact ⟨[], by simp⟩
    obtain ⟨m, hm⟩ := hm
    by_cases hpt : (pageTextOf pg).isEmpty = true
    · have hstep : pdfLoop (pg :: rest) pageNum acc = pdfLoop rest (pageNum + 1) acc1 := by
        rw [hacc1def]
        simp [pdfLoop, hpt]
      obtain ⟨γ, hγ⟩ := ih (pageNum + 1) acc1
      exact ⟨m ++ γ, by rw [hstep, hγ, hm, List.append_assoc]⟩
    · have hpt' : (pageTextOf pg).isEmpty = false := by simpa using hpt
      by_cases h20 : pageNum % 20 = 0
      · have hstep : pdfLoop (pg :: rest) pageNum acc
            = pdfLoop rest (pageNum + 1)
              { acc1 with
                full := acc1.full ++ pageTextOf pg ++ [' '],
                wc := acc1.wc + (tokensOf (pageTextOf pg)).length,
                breaks := acc1.breaks ++ [acc1.wc + (tokensOf (pageTextOf pg)).length] } := by
          rw [hacc1def]
          simp [pdfLoop, hpt', h20]
        obtain ⟨γ, hγ⟩ := ih (pageNum + 1)
          { acc1 with
            full := acc1.full ++ pageTextOf pg ++ [' '],
            wc := acc1.wc + (tokensOf (pageTextOf pg)).length,
            breaks := acc1.breaks ++ [acc1.wc + (tokensOf (pageTextOf pg)).length] }
        refine ⟨m ++ γ, ?_⟩
        rw [hstep, hγ]
        dsimp only
        rw [hm, List.append_assoc]
      · have hstep : pdfLoop (pg :: rest) pageNum acc
            = pdfLoop rest (pageNum + 1)
              { acc1 with
                full := acc1.full ++ pageTextOf pg ++ [' '],
                wc := acc1.wc + (tokensOf (pageTextOf pg)).length } := by
          rw [hacc1def]
          simp [pdfLoop, hpt', h20]
        obtain ⟨γ, hγ⟩ := ih (pageNum + 1)
          { acc1 with
            full := acc1.full ++ pageTextOf pg ++ [' '],
            wc := acc1.wc + (tokensOf (pageTextOf pg)).length }
        refine ⟨m ++ γ, ?_⟩
        rw [hstep, hγ]
        dsimp only
        rw [hm, List.append_assoc]

theorem pdfLoop_head1 (pg : List Str) (rest : List (List Str)) (acc : ExtractAcc)
    (hch : acc.chapters = []) :
    (pdfLoop (pg :: rest) 1 acc).chapters.head? = some ⟨"Page 1".data, acc.wc⟩ := by
  have hP : "Page ".data ++ natStr 1 = "Page 1".data := by decide
  set acc1 := (if (1 : Nat) = 1 ∨ (1 : Nat) % 20 = 0 then
      { acc with chapters := acc.chapters ++ [⟨"Page ".data ++ natStr 1, acc.wc⟩] }
    else acc) with hacc1def
  have hch1 : acc1.chapters = [⟨"Page 1".data, acc.wc⟩] := by
    rw [hacc1def, if_pos (Or.inl rfl)]
    dsimp only
    rw [hch, hP]
    rfl
  by_cases hpt : (pageTextOf pg).isEmpty = true
  · have hstep : pdfLoop (pg :: rest) 1 acc = pdfLoop rest 2 acc1 := by
      rw [hacc1def]
      simp [pdfLoop, hpt]
    obtain ⟨γ, hγ⟩ := pdfLoop_chapters_append rest 2 acc1
    rw [hstep, hγ, hch1]
    rfl
  · have hpt' : (pageTextOf pg).isEmpty = false := by simpa using hpt
    have hstep : pdfLoop (pg :: rest) 1 acc
        = pdfLoop rest 2
          { acc1 with
            full := acc1.full ++ pageTextOf pg ++ [' '],
            wc := acc1.wc + (tokensOf (pageTextOf pg)).length } := by
      rw [hacc1def]
      simp [pdfLoop, hpt']
    obtain ⟨γ, hγ⟩ := pdfLoop_chapters_append rest 2
      { acc1 with
        full := acc1.full ++ pageTextOf pg ++ [' '],
        wc := acc1.wc + (tokensOf (pageTextOf pg)).length }
    rw [hstep, hγ]
    dsimp only
    rw [hch1]
    rfl

/-- Claim C4: on every successfully parsed PDF with at least one page, the
first chapter marker is Page 1 with index zero (the word count before page
one is read), and every chapterBreaks entry beyond the initial zero comes
from a page whose number is a multiple of twenty; in particular page one
never contributes a chapterBreaks entry. -/
theorem C4_theorem (name : Str) (doc : PdfDoc) (book : ParsedBook)
    (hpages : 1 ≤ doc.pages.length)
    (hok : parsePdfModel name doc = Except.ok book) :
    book.metadata.chapters.head? = some ⟨"Page 1".data, 0⟩ ∧
    book.chapterBreaks.head? = some 0 ∧
    ∀ x ∈ book.chapterBreaks.tail,
      ∃ p, 1 ≤ p ∧ p ≤ doc.pages.length ∧ p % 20 = 0 ∧ p ≠ 1 ∧
        x = pageWords doc.pages p := by
  unfold parsePdfModel at hok
  dsimp only at hok
  split at hok
  · cases hok
  · injection hok with hok
    subst hok
    obtain ⟨δ, hδ, hx⟩ := pdfLoop_breaks doc.pages 1 ⟨[], [], 0, [0]⟩
    dsimp only at hδ hx
    obtain ⟨pg, rest, hpg⟩ : ∃ pg rest, doc.pages = pg :: rest := by
      cases hc : doc.pages with
      | nil =>
        rw [hc] at hpages
        simp at hpages
      | cons a b => exact ⟨a, b, rfl⟩
    refine ⟨?_, ?_, ?_⟩
    · show (pdfLoop doc.pages 1 ⟨[], [], 0, [0]⟩).chapters.head? = some ⟨"Page 1".data, 0⟩
      rw [hpg]
      exact pdfLoop_head1 pg rest ⟨[], [], 0, [0]⟩ rfl
    · show (pdfLoop doc.pages 1 ⟨[], [], 0, [0]⟩).breaks.head? = some 0
      rw [hδ]
      rfl
    · intro x hxm
      have hxm2 : x ∈ δ := by
        have ht : (pdfLoop doc.pages 1 ⟨[], [], 0, [0]⟩).breaks.tail = δ := by
          rw [hδ]
          rfl
        rw [← ht]
        exact hxm
      obtain ⟨k, hk, h20, hval⟩ := hx x hxm2
      refine ⟨k + 1, by omega, by omega, by omega, by omega, ?_⟩
      rw [hval]
      omega

/-- Witness for C4 on a one-page document. -/
theorem C4_witness :
    1 ≤ pdfDocW.pages.length ∧
    (pdfBookW.metadata.chapters.head? = some ⟨"Page 1".data, 0⟩ ∧
     pdfBookW.chapterBreaks.head? = some 0 ∧
     ∀ x ∈ pdfBookW.chapterBreaks.tail,
       ∃ p, 1 ≤ p ∧ p ≤ pdfDocW.pages.length ∧ p % 20 = 0 ∧ p ≠ 1 ∧
         x = pageWords pdfDocW.pages p) :=
  ⟨by decide, C4_theorem ("b.pdf".data) pdfDocW pdfBookW (by decide) (by decide)⟩

theorem concatPages_nil (pages : List (List Str)) (h : ∀ pg ∈ pages, pageTextOf pg = []) :
    concatPages pages = [] := by
  induction pages with
  | nil => rfl
  | cons pg rest ih =>
    have h0 : pageTextOf pg = [] := h pg (by simp)
    have : concatPages (pg :: rest) = concatPages rest := by simp [concatPages, h0]
    rw [this]
    exact ih (fun q hq => h q (by simp [hq]))

theorem dropWhile_head_false (p : Char → Bool) (l : List Char) (c : Char) (r : List Char)
    (h : l.dropWhile p = c :: r) : p c = false := by
  induction l with
  | nil => simp at h
  | cons a t ih =>
    by_cases hp : p a
    · rw [List.dropWhile_cons, if_pos hp] at h
      exact ih h
    · rw [List.dropWhile_cons, if_neg hp] at h
      injection h with h1 _
      subst h1
      simpa using hp

theorem jsTrim_has_nonws (y : Str) (h : jsTrim y ≠ []) :
    ∃ c ∈ jsTrim y, isWs c = false := by
  rw [jsTrim, trimR] at h ⊢
  cases hd : (trimL y).reverse.dropWhile (fun c => isWs c) with
  | nil =>
    rw [hd] at h
    simp at h
  | cons c r =>
    refine ⟨c, ?_, dropWhile_head_false _ _ c r hd⟩
    simp

theorem mem_trimL (s : Str) (c : Char) (hc : c ∈ s) (hw : isWs c = false) : c ∈ trimL s := by
  induction s with
  | nil => simp at hc
  | cons a t ih =>
    by_cases ha : isWs a
    · have hct : c ∈ t := by
        rcases List.mem_cons.mp hc with he | he
        · subst he
          rw [hw] at ha
          cases ha
        · exact he
      rw [trimL, List.dropWhile_cons, if_pos ha]
      exact ih hct
    · rw [trimL, List.dropWhile_cons, if_neg ha]
      exact hc

theorem jsTrim_ne_nil_of_nonws (s : Str) (c : Char) (hc : c ∈ s) (hw : isWs c = false) :
    jsTrim s ≠ [] := by
  intro h
  rw [jsTrim, trimR] at h
  have h2 : (trimL s).reverse.dropWhile (fun x => isWs x) = [] := by
    have := congrArg List.reverse h
    simpa using this
  have h3 := List.dropWhile_eq_nil_iff.mp h2
  have hcin : c ∈ (trimL s).reverse := by
    rw [List.mem_reverse]
    exact mem_trimL s c hc hw
  have := h3 c hcin
  rw [hw] at this
  cases this

theorem mem_concatPages (pages : List (List Str)) (pg : List Str) (hpg : pg ∈ pages)
    (c : Char) (hc : c ∈ pageTextOf pg) : c ∈ concatPages pages := by
  induction pages with
  | nil => simp at hpg
  | cons q rest ih =>
    rcases List.mem_cons.mp hpg with hq | hq
    · subst hq
      have hne : (pageTextOf pg).isEmpty = false := by
        cases hpt : pageTextOf pg with
        | nil =>
          rw [hpt] at hc
          simp at hc
        | cons _ _ => rfl
      rw [show concatPages (pg :: rest) = pageTextOf pg ++ ' ' :: concatPages rest from by
        simp [concatPages, hne]]
      exact List.mem_append.mpr (Or.inl hc)
    · by_cases hq0 : (pageTextOf q).isEmpty = true
      · rw [show concatPages (q :: rest) = concatPages rest from by simp [concatPages, hq0]]
        exact ih hq
      · have hq0' : (pageTextOf q).isEmpty = false := by simpa using hq0
        rw [show concatPages (q :: rest) = pageTextOf q ++ ' ' :: concatPages rest from by
          simp [concatPages, hq0']]
        exact List.mem_append.mpr (Or.inr (List.mem_cons.mpr (Or.inr (ih hq))))

/-- Claim C9: parsePdf fails with EmptyDocument exactly when every page
yields empty extracted text (so the concatenated content is empty after all
pages); by the Except type no ParsedBook is produced in that case. -/
theorem C9_theorem (name : Str) (doc : PdfDoc) :
    parsePdfModel name doc = Except.error ParseErr.emptyDocument ↔
      ∀ pg ∈ doc.pages, pageTextOf pg = [] := by
  have hfull2 : (pdfLoop doc.pages 1 ⟨[], [], 0, [0]⟩).full = concatPages doc.pages := by
    rw [pdfLoop_full doc.pages 1 ⟨[], [], 0, [0]⟩]
    rfl
  constructor
  · intro herr pg hpg
    unfold parsePdfModel at herr
    dsimp only at herr
    by_cases hemp : (jsTrim (pdfLoop doc.pages 1 ⟨[], [], 0, [0]⟩).full).isEmpty = true
    · by_contra hne
      have hptne : pageTextOf pg ≠ [] := hne
      have hjt : jsTrim (concatPages doc.pages) = [] := by
        rw [← hfull2]
        exact List.isEmpty_iff.mp hemp
      obtain ⟨c, hcin, hcw⟩ : ∃ c ∈ pageTextOf pg, isWs c = false := by
        have : jsTrim (collapseWs (List.intercalate [' '] pg)) ≠ [] := hptne
        exact jsTrim_has_nonws (collapseWs (List.intercalate [' '] pg)) this
      have hcc : c ∈ concatPages doc.pages := mem_concatPages doc.pages pg hpg c hcin
      exact jsTrim_ne_nil_of_nonws (concatPages doc.pages) c hcc hcw hjt
    · rw [if_neg hemp] at herr
      cases herr
  · intro hall
    unfold parsePdfModel
    dsimp only
    have hcond : (jsTrim (pdfLoop doc.pages 1 ⟨[], [], 0, [0]⟩).full).isEmpty = true := by
      rw [hfull2, concatPages_nil doc.pages hall]
      rfl
    rw [if_pos hcond]

/-- Witness for C9: a one-page document whose page has only whitespace runs
fails with EmptyDocument. -/
theorem C9_witness :
    parsePdfModel ("s.pdf".data) pdfDocEmpty = Except.error ParseErr.emptyDocument :=
  (C9_theorem ("s.pdf".data) pdfDocEmpty).mpr (by decide)

theorem countWords_repWords : ∀ n, countWords (repWords n) = n
  | 0 => by decide
  | 1 => by decide
  | n + 2 => by
    rw [show repWords (n + 2) = 'a' :: ' ' :: repWords (n + 1) from rfl]
    rw [countWords_cons_nws 'a' (' ' :: repWords (n + 1)) (by decide)]
    rw [show startsWsB (' ' :: repWords (n + 1)) = true from rfl]
    rw [countWords_cons_ws ' ' (repWords (n + 1)) (by decide)]
    rw [countWords_repWords (n + 1)]
    simp

theorem repWords_mem : ∀ (n : Nat) (c : Char), c ∈ repWords n → c = 'a' ∨ c = ' '
  | 0, c, hc => by simp [repWords] at hc
  | 1, c, hc => by
    simp [repWords] at hc
    exact Or.inl hc
  | n + 2, c, hc => by
    rw [show repWords (n + 2) = 'a' :: ' ' :: repWords (n + 1) from rfl] at hc
    rcases List.mem_cons.mp hc with h | h
    · exact Or.inl h
    · rcases List.mem_cons.mp h with h | h
      · exact Or.inr h
      · exact repWords_mem (n + 1) c h

theorem splitOnChar_no_sep (sep : Char) (s : Str) (h : ∀ c ∈ s, c ≠ sep) :
    splitOnChar sep s = [s] := by
  induction s with
  | nil => rfl
  | cons c cs ih =>
    have hc : c ≠ sep := h c (by simp)
    rw [show splitOnChar sep (c :: cs)
        = (c :: (splitOnChar sep cs).headD []) :: (splitOnChar sep cs).tail from by
      simp [splitOnChar, hc]]
    rw [ih (fun x hx => h x (by simp [hx]))]
    rfl

theorem repWords_lines (n : Nat) : splitOnChar '\n' (repWords n) = [repWords n] := by
  apply splitOnChar_no_sep
  intro c hc
  rcases repWords_mem n c hc with h | h <;> subst h <;> decide

theorem trimL_id (s : Str) (h : startsWsB s = false) : trimL s = s := by
  cases s with
  | nil => rfl
  | cons c cs =>
    have hc : isWs c = false := h
    rw [trimL, List.dropWhile_cons]
    simp [hc]

theorem trimR_id (s : Str) (h : startsWsB s.reverse = false) : trimR s = s := by
  show (trimL s.reverse).reverse = s
  rw [trimL_id s.reverse h, List.reverse_reverse]

theorem repWords_reverse_cons : ∀ n, ∃ r, (repWords (n + 1)).reverse = 'a' :: r
  | 0 => ⟨[], rfl⟩
  | n + 1 => by
    obtain ⟨r, hr⟩ := repWords_reverse_cons n
    refine ⟨r ++ [' ', 'a'], ?_⟩
    rw [show repWords (n + 2) = 'a' :: ' ' :: repWords (n + 1) from rfl]
    rw [List.reverse_cons, List.reverse_cons, hr]
    simp

theorem jsTrim_repWords (n : Nat) : jsTrim (repWords (n + 1)) = repWords (n + 1) := by
  have h1 : startsWsB (repWords (n + 1)) = false := by
    cases n with
    | zero => decide
    | succ m => rfl
  obtain ⟨r, hr⟩ := repWords_reverse_cons n
  have h2 : startsWsB (repWords (n + 1)).reverse = false := by
    rw [hr]
    rfl
  rw [jsTrim, trimL_id _ h1, trimR_id _ h2]

theorem isHeading_a_cons (r : Str) : isHeadingLine ('a' :: r) = false := by
  rw [isHeadingLine]
  rw [show hasPre ("chapter ".data) (toLowerL ('a' :: r)) = false from rfl]
  rw [show headingKeywordNum ('a' :: r) = false from rfl]
  rw [show (('a' :: r) == toUpperL ('a' :: r)) = false from rfl]
  simp

theorem repWords_not_heading (n : Nat) : isHeadingLine (jsTrim (repWords (n + 1))) = false := by
  rw [jsTrim_repWords n]
  obtain ⟨r, hr⟩ : ∃ r, repWords (n + 1) = 'a' :: r := by
    cases n with
    | zero => exact ⟨[], rfl⟩
    | succ m => exact ⟨' ' :: repWords (m + 1), rfl⟩
  rw [hr]
  exact isHeading_a_cons r

theorem parseTxtModel_breaks (name content : Str) :
    (parseTxtModel name content).chapterBreaks
      = (txtLoop (splitOnChar '\n' content) ([], 0, [0])).2.2 := rfl

theorem parseTxtModel_chapters (name content : Str) :
    (parseTxtModel name content).metadata.chapters
      = (if (txtLoop (splitOnChar '\n' content) ([], 0, [0])).1.isEmpty
         then synthChapters (countWords content)
         else (txtLoop (splitOnChar '\n' content) ([], 0, [0])).1) := rfl

/-- Counterexample for C5: a single-line text of 2001 words has no heading
lines, so parseTxt synthesizes Section 1 at offset 0 and Section 2 at
offset 2000, yet chapterBreaks stays [0]: the synthesized offset 2000 never
appears in chapterBreaks. -/
theorem C5_counterexample :
    (parseTxtModel ("b.txt".data) c5Content).metadata.chapters
      = [⟨"Section 1".data, 0⟩, ⟨"Section 2".data, 2000⟩] ∧
    ¬ 2000 ∈ (parseTxtModel ("b.txt".data) c5Content).chapterBreaks := by
  have hnh : ∀ l ∈ splitOnChar '\n' c5Content, isHeadingLine (jsTrim l) = false := by
    rw [show c5Content = repWords 2001 from rfl, repWords_lines 2001]
    intro l hl
    simp at hl
    subst hl
    exact repWords_not_heading 2000
  have hloop := txtLoop_no_heading (splitOnChar '\n' c5Content) hnh [] 0 [0]
  have hbr : (parseTxtModel ("b.txt".data) c5Content).chapterBreaks = [0] := by
    rw [parseTxtModel_breaks, hloop]
  have hch : (parseTxtModel ("b.txt".data) c5Content).metadata.chapters
      = synthChapters 2001 := by
    rw [parseTxtModel_chapters, hloop]
    dsimp only
    rw [show countWords c5Content = 2001 from countWords_repWords 2001]
    rfl
  constructor
  · rw [hch]
    decide
  · rw [hbr]
    decide

/-- Claim C5 amended: when no line is detected as a heading, the synthetic
sections are added only to metadata.chapters; chapterBreaks receives none of
their offsets and stays exactly [0]. -/
theorem C5_theorem (name content : Str)
    (h : ∀ line ∈ splitOnChar '\n' content, isHeadingLine (jsTrim line) = false) :
    (parseTxtModel name content).chapterBreaks = [0] := by
  rw [parseTxtModel_breaks, txtLoop_no_heading (splitOnChar '\n' content) h [] 0 [0]]

/-- Witness for C5 on a small heading-free input. -/
theorem C5_witness : (parseTxtModel ("w.txt".data) "hello world".data).chapterBreaks = [0] :=
  C5_theorem ("w.txt".data) "hello world".data (by decide)

/-- Claim C6: a plain-text input with no heading-like lines and exactly 4500
words yields exactly three synthesized chapters, Section 1 at 0, Section 2
at 2000 and Section 3 at 4000. -/
theorem C6_theorem (name content : Str)
    (hnh : ∀ line ∈ splitOnChar '\n' content, isHeadingLine (jsTrim line) = false)
    (hcw : countWords content = 4500) :
    (parseTxtModel name content).metadata.chapters
      = [⟨"Section 1".data, 0⟩, ⟨"Section 2".data, 2000⟩, ⟨"Section 3".data, 4000⟩] := by
  rw [parseTxtModel_chapters, txtLoop_no_heading (splitOnChar '\n' content) hnh [] 0 [0]]
  dsimp only
  rw [hcw]
  decide

/-- Witness for C6: 4500 one-letter words on a single line. -/
theorem C6_witness :
    (∀ line ∈ splitOnChar '\n' c6Content, isHeadingLine (jsTrim line) = false) ∧
    countWords c6Content = 4500 ∧
    (parseTxtModel ("c.txt".data) c6Content).metadata.chapters
      = [⟨"Section 1".data, 0⟩, ⟨"Section 2".data, 2000⟩, ⟨"Section 3".data, 4000⟩] := by
  have hnh : ∀ line ∈ splitOnChar '\n' c6Content, isHeadingLine (jsTrim line) = false := by
    rw [show c6Content = repWords 4500 from rfl, repWords_lines 4500]
    intro l hl
    simp at hl
    subst hl
    exact repWords_not_heading 4499
  have hcw : countWords c6Content = 4500 := countWords_repWords 4500
  exact ⟨hnh, hcw, C6_theorem ("c.txt".data) c6Content hnh hcw⟩

/-- Claim C7: the markup stripper turns the sample input into exactly
A space B space C: the script element is removed with its content, block
tags become spaces, the no-break-space entity decodes to a space, and
whitespace runs are collapsed with the result trimmed. -/
theorem C7_theorem :
    stripHtml ("<p>A&nbsp;B</p><script>ignored</script><div>C</div>".data) = "A B C".data := by
  decide

theorem foldl_manifest (pairs : List (Str × Str)) :
    ∀ (m : Str → Option Str) (idv : Str),
      pairs.foldl (fun m p => fun k => if k = p.1 then some p.2 else m k) m idv
        = (((pairs.filter (fun pr => pr.1 = idv)).getLast?).map (fun pr => some pr.2)).getD
            (m idv) := by
  induction pairs with
  | nil =>
    intro m idv
    rfl
  | cons p ps ih =>
    intro m idv
    rw [List.foldl_cons, ih]
    by_cases hp : p.1 = idv
    · rw [show (p :: ps).filter (fun pr => pr.1 = idv) = p :: ps.filter (fun pr => pr.1 = idv)
          from by simp [List.filter_cons, hp]]
      cases hl : ps.filter (fun pr => pr.1 = idv) with
      | nil =>
        simp [hp.symm]
      | cons q qs =>
        rw [List.getLast?_cons_cons]
        obtain ⟨r, hr⟩ : ∃ r, (q :: qs).getLast? = some r := by
          cases hg : (q :: qs).getLast? with
          | none => simp at hg
          | some r => exact ⟨r, rfl⟩
        rw [hr]
        rfl
    · rw [show (p :: ps).filter (fun pr => pr.1 = idv) = ps.filter (fun pr => pr.1 = idv)
          from by simp [List.filter_cons, hp]]
      have hne : ¬ idv = p.1 := fun he => hp he.symm
      rw [if_neg hne]

/-- Counterexample for C1: with two manifest items sharing the id a, the
id-to-href mapping returns the href of the SECOND (last) item, not the
first. -/
theorem C1_counterexample :
    manifestScan c1Opf = [("a".data, "one.xhtml".data), ("a".data, "two.xhtml".data)] ∧
    buildManifest (manifestScan c1Opf) "a".data = some ("two.xhtml".data) ∧
    some ("two.xhtml".data) ≠ some ("one.xhtml".data : Str) := by
  refine ⟨by decide, by decide, by decide⟩

/-- Claim C1 amended: the manifest id-to-href mapping keeps, for each id,
the href of the LAST matching item element (each regex match overwrites the
object entry for its id). -/
theorem C1_theorem (opf idv : Str) :
    buildManifest (manifestScan opf) idv
      = ((manifestScan opf).filter (fun pr => pr.1 = idv)).getLast?.map (fun pr => pr.2) := by
  unfold buildManifest
  rw [foldl_manifest (manifestScan opf) (fun _ => none) idv]
  cases ((manifestScan opf).filter (fun pr => pr.1 = idv)).getLast? with
  | none => rfl
  | some q => rfl

/-- Counterexample for C2: on the minimal archive the returned content keeps
the heading text, so its token list is Intro Hello world, not just Hello
world. -/
theorem C2_counterexample :
    (parseEpubModel ("book.epub".data) c2Zip).map (fun b => tokensOf b.content)
      = Except.ok ["Intro".data, "Hello".data, "world".data] ∧
    ¬ (["Intro".data, "Hello".data, "world".data]
        = (["Hello".data, "world".data] : List Str)) := by
  refine ⟨by decide, by decide⟩

/-- Claim C2 amended: parsing the minimal archive yields
metadata.chapters = [Intro at 0], and the content tokenizes to exactly
Intro Hello world (the h1 text is kept by the stripper, so the Intro token
precedes Hello and world). -/
theorem C2_theorem :
    parseEpubModel ("book.epub".data) c2Zip = Except.ok c2Book ∧
    c2Book.metadata.chapters = [⟨"Intro".data, 0⟩] ∧
    tokensOf c2Book.content = ["Intro".data, "Hello".data, "world".data] := by
  refine ⟨by decide, by decide, by decide⟩

theorem uint32_le_iff (a b : UInt32) : a ≤ b ↔ a.toNat ≤ b.toNat := by
  rw [UInt32.le_def, BitVec.le_def]
  exact Iff.rfl

theorem toUpper_eq_self_of_not_lower (c : Char) (h : c.isLower = false) : c.toUpper = c := by
  have hcond : ¬ (Char.toNat c ≥ 97 ∧ Char.toNat c ≤ 122) := by
    rintro ⟨h97, h122⟩
    rw [Char.isLower] at h
    have hv97 : (97 : UInt32) ≤ c.val := by
      rw [uint32_le_iff]
      simpa using h97
    have hv122 : c.val ≤ (122 : UInt32) := by
      rw [uint32_le_iff]
      simpa using h122
    simp [hv97, hv122] at h
  show (if Char.toNat c ≥ 97 ∧ Char.toNat c ≤ 122 then Char.ofNat (Char.toNat c - 32) else c) = c
  rw [if_neg hcond]

theorem toUpperL_eq_self (t : Str) (h : ∀ c ∈ t, c.isLower = false) : toUpperL t = t := by
  induction t with
  | nil => rfl
  | cons a u ih =>
    rw [toUpperL, List.map_cons]
    rw [toUpper_eq_self_of_not_lower a (h a (by simp))]
    rw [show List.map Char.toUpper u = toUpperL u from rfl]
    rw [ih (fun c hc => h c (by simp [hc]))]

theorem isHeading_of_allcaps (t : Str) (h3 : 3 < t.length) (h50 : t.length < 50)
    (hlow : ∀ c ∈ t, c.isLower = false) : isHeadingLine t = true := by
  simp [isHeadingLine, toUpperL_eq_self t hlow, h3, h50]

/-- Claim C10: every line whose trimmed form has length strictly between 3
and 50 and contains no lowercase letter (lines of digits or punctuation
included) is classified as a chapter heading by parseTxt, producing a
chapter entry with the trimmed line as title and a chapterBreaks entry at
the word count accumulated before that line. -/
theorem C10_theorem (name content : Str) (i : Nat) (line : Str)
    (hget : (splitOnChar '\n' content).get? i = some line)
    (h3 : 3 < (jsTrim line).length) (h50 : (jsTrim line).length < 50)
    (hlow : ∀ c ∈ jsTrim line, c.isLower = false) :
    (⟨jsTrim line, sumTrimWords ((splitOnChar '\n' content).take i)⟩ : Chapter)
        ∈ (parseTxtModel name content).metadata.chapters ∧
    sumTrimWords ((splitOnChar '\n' content).take i)
        ∈ (parseTxtModel name content).chapterBreaks := by
  have hH : isHeadingLine (jsTrim line) = true := isHeading_of_allcaps _ h3 h50 hlow
  have hmem := txtLoop_heading_mem (splitOnChar '\n' content) i line [] 0 [0] hget hH
  simp only [Nat.zero_add] at hmem
  constructor
  · rw [parseTxtModel_chapters]
    have h1 := hmem.1
    have hne : (txtLoop (splitOnChar '\n' content) ([], 0, [0])).1 ≠ [] :=
      List.ne_nil_of_mem h1
    rw [if_neg (by simpa [List.isEmpty_iff] using hne)]
    exact h1
  · rw [parseTxtModel_breaks]
    exact hmem.2

/-- Witness for C10: the digits-only line 1984 is detected as a heading at
offset zero. -/
theorem C10_witness :
    (⟨jsTrim ("1984".data), sumTrimWords ((splitOnChar '\n' "1984\nhello there".data).take 0)⟩
        : Chapter)
      ∈ (parseTxtModel ("a.txt".data) "1984\nhello there".data).metadata.chapters ∧
    sumTrimWords ((splitOnChar '\n' "1984\nhello there".data).take 0)
      ∈ (parseTxtModel ("a.txt".data) "1984\nhello there".data).chapterBreaks :=
  C10_theorem ("a.txt".data) "1984\nhello there".data 0 "1984".data
    (by decide) (by decide) (by decide) (by decide)

theorem parseEpubModel_stripTitle (n1 n2 : Str) (z : List (Str × Str)) :
    (parseEpubModel n1 z).map stripTitle = (parseEpubModel n2 z).map stripTitle := by
  unfold parseEpubModel
  cases zipFile? z ("META-INF/container.xml".data) with
  | none => rfl
  | some c =>
    dsimp only
    cases fullPathCapture c with
    | none => rfl
    | some p =>
      dsimp only
      cases zipFile? z p with
      | none => rfl
      | some opf => rfl

/-- Counterexample for C8: the same minimal archive parsed under the names
book.EPUB and book.epub yields different results, because the fallback
title strips the literal .epub case-sensitively from the original name. -/
theorem C8_counterexample :
    parseBookFileModel ⟨"book.EPUB".data, c2Zip, ⟨none, none, []⟩, []⟩
      ≠ parseBookFileModel ⟨"book.epub".data, c2Zip, ⟨none, none, []⟩, []⟩ := by
  decide

/-- Claim C8 amended: parseBookFile dispatches on the lowercased extension,
so book.EPUB and book.epub are both routed to the EPUB parser and their
results agree except possibly in metadata.title (the fallback title strips
.epub case-sensitively from the original name); every file whose lowercased
extension is not epub, pdf or txt, including a name with no dot, fails with
UnsupportedFormat carrying the computed extension string. -/
theorem C8_theorem :
    (∀ (z : List (Str × Str)) (p : PdfDoc) (t : Str),
        extOf ("book.EPUB".data) = "epub".data ∧
        parseBookFileModel ⟨"book.EPUB".data, z, p, t⟩ = parseEpubModel ("book.EPUB".data) z ∧
        parseBookFileModel ⟨"book.epub".data, z, p, t⟩ = parseEpubModel ("book.epub".data) z ∧
        (parseBookFileModel ⟨"book.EPUB".data, z, p, t⟩).map stripTitle
          = (parseBookFileModel ⟨"book.epub".data, z, p, t⟩).map stripTitle) ∧
    (∀ f : JsFile,
        ¬ extOf f.name ∈ (["epub".data, "pdf".data, "txt".data] : List Str) →
        parseBookFileModel f = Except.error (ParseErr.unsupportedFormat (extOf f.name))) := by
  constructor
  · intro z p t
    have d1 : parseBookFileModel ⟨"book.EPUB".data, z, p, t⟩
        = parseEpubModel ("book.EPUB".data) z := by
      unfold parseBookFileModel
      dsimp only
      rw [if_pos (by decide)]
    have d2 : parseBookFileModel ⟨"book.epub".data, z, p, t⟩
        = parseEpubModel ("book.epub".data) z := by
      unfold parseBookFileModel
      dsimp only
      rw [if_pos (by decide)]
    refine ⟨by decide, d1, d2, ?_⟩
    rw [d1, d2]
    exact parseEpubModel_stripTitle ("book.EPUB".data) "book.epub".data z
  · intro f hmem
    simp only [List.mem_cons, List.mem_singleton, not_or] at hmem
    obtain ⟨h1, h2, h3⟩ := hmem
    unfold parseBookFileModel
    dsimp only
    rw [if_neg h1, if_neg h2, if_neg (by simpa using h3)]

/-- Witness for C8: the extensionless name book is unsupported and the error
carries the string book. -/
theorem C8_witness :
    ¬ extOf fBook.name ∈ (["epub".data, "pdf".data, "txt".data] : List Str) ∧
    parseBookFileModel fBook = Except.error (ParseErr.unsupportedFormat ("book".data)) :=
  ⟨by decide, C8_theorem.2 fBook (by decide)⟩
